import Mathlib

/-!
Verification of the embedding-server repository.

Each Rust function relevant to the claims is shallowly embedded as an
executable Lean definition, translated clause by clause from the source:

* `crates/libs/lib-cron/src/db_operations.rs`
  (`enforce_token_limit`, `split_markdown_into_chunks`,
   `fetch_markdown_with_retry`, `process_new_files`, `sync_s3_files`);
* `crates/libs/lib-core/src/model/files.rs` (`FileMac::create_file`,
  `FileMac::update_file`, `FileMac::delete_file`);
* `crates/libs/lib-cron/src/lib.rs` (jobs cache, `save_jobs_to_file`,
  `load_jobs_from_file`);
* `crates/services/api-service/src/ai/mod.rs` (`position_offset`,
  `max_input_length` resolution in `run`);
* `crates/services/api-service/src/routes/embed.rs` (`run_embed`
  error-to-status mapping).

External collaborators (HTTP layer, HuggingFace tokenizer, S3, the
relational database engine, uuid library) appear as explicit parameters
or oracles; the Rust control flow around them is translated literally.
-/

/-! ## Rust string splitting, specialised to the patterns the chunker uses

`str::split('.')` and `str::split("\n\n")`: non-overlapping left-to-right
matches, empty pieces kept, an empty input yields one empty piece. The
definitions are structurally recursive so that concrete runs reduce in
the kernel.
-/

/-- Rust `s.split(c)` on the character list of `s`. -/
def splitChar (c : Char) : List Char → List (List Char)
  | [] => [[]]
  | x :: xs =>
    if x = c then [] :: splitChar c xs
    else
      match splitChar c xs with
      | [] => [[x]]
      | h :: t => (x :: h) :: t

/-- Rust `s.split("\n\n")` on the character list of `s`. -/
def splitTwoNl : List Char → List (List Char)
  | [] => [[]]
  | [a] => [[a]]
  | a :: b :: rest =>
    if a = '\n' ∧ b = '\n' then [] :: splitTwoNl rest
    else
      match splitTwoNl (b :: rest) with
      | [] => [[a]]
      | h :: t => (a :: h) :: t

/-- Rust `content.split("\n\n")` as strings. -/
def rustSplitPara (s : String) : List String :=
  (splitTwoNl s.data).map String.mk

/-- Rust `paragraph.split('.')` as strings. -/
def rustSplitDot (s : String) : List String :=
  (splitChar '.' s.data).map String.mk

/-! ## The chunker (`db_operations.rs`)

The chunker owns a HuggingFace tokenizer (`embedder.tokenizer`), an
external component. It is embedded as a pair of functions: `encode s`
stands for `tokenizer.encode(s, true)` (token ids, special tokens
included) and `decode ids` for `tokenizer.decode(ids, true)` (special
tokens skipped).
-/

/-- The tokenizer interface the chunker consumes. -/
structure Tok where
  encode : String → List Nat
  decode : List Nat → String

/-- Rust `slice::chunks(n)` helper: `acc` is the current (reversed)
chunk, `k` the remaining capacity of the current chunk. -/
def sliceChunksAux (n : Nat) : List α → List α → Nat → List (List α)
  | [], acc, _ => if acc.isEmpty then [] else [acc.reverse]
  | x :: xs, acc, 0 => acc.reverse :: sliceChunksAux n xs [x] (n - 1)
  | x :: xs, acc, Nat.succ k => sliceChunksAux n xs (x :: acc) k

/-- Rust `slice::chunks(n)`: consecutive slices of length `n`, the last
one possibly shorter. -/
def sliceChunks (n : Nat) (l : List α) : List (List α) :=
  sliceChunksAux n l [] n

/-- `enforce_token_limit` (db_operations.rs, lines 36-49): if the
encoding fits, return the text whole; otherwise decode windows of at
most `maxTokens` token ids. -/
def enforce_token_limit (tok : Tok) (text : String) (maxTokens : Nat) : List String :=
  let tokens := tok.encode text
  if tokens.length ≤ maxTokens then [text]
  else (sliceChunks maxTokens tokens).map tok.decode

/-- The hard-split branch of `split_markdown_into_chunks`: sentence-split
the offending paragraph on '.' and enforce the token limit on each
sentence. -/
def hardSplitParagraph (tok : Tok) (paragraph : String) (maxTokens : Nat) : List String :=
  (rustSplitDot paragraph).flatMap (fun sentence => enforce_token_limit tok sentence maxTokens)

/-- The paragraph loop of `split_markdown_into_chunks`:
`current` is `current_chunk`, `chunks` the output accumulator. -/
def splitLoop (tok : Tok) (maxTokens : Nat) : List String → String → List String → List String
  | [], current, chunks =>
    if current.isEmpty then chunks else chunks ++ [current]
  | p :: ps, current, chunks =>
    let candidate := if current.isEmpty then p else current ++ "\n\n" ++ p
    let tokens := (tok.encode candidate).length
    if maxTokens ≤ tokens then
      let chunks1 := if current.isEmpty then chunks else chunks ++ [current]
      splitLoop tok maxTokens ps "" (chunks1 ++ hardSplitParagraph tok p maxTokens)
    else
      splitLoop tok maxTokens ps candidate chunks

/-- `split_markdown_into_chunks` (db_operations.rs, lines 230-272). -/
def split_markdown_into_chunks (tok : Tok) (content : String) (maxTokens : Nat) : List String :=
  splitLoop tok maxTokens (rustSplitPara content) "" []

/-! ### C1 lemmas -/

theorem sliceChunksAux_length_le {α : Type} (n : Nat) (hn : 1 ≤ n) :
    ∀ (l acc : List α) (k : Nat), acc.length + k = n →
      ∀ w ∈ sliceChunksAux n l acc k, w.length ≤ n := by
  intro l
  induction l with
  | nil =>
    intro acc k hk w hw
    simp only [sliceChunksAux] at hw
    split at hw
    · simp at hw
    · simp at hw
      subst hw
      simp
      omega
  | cons x xs ih =>
    intro acc k hk w hw
    match k with
    | 0 =>
      simp only [sliceChunksAux] at hw
      rcases List.mem_cons.1 hw with h | h
      · subst h
        simp
        omega
      · exact ih [x] (n - 1) (by simp; omega) w h
    | Nat.succ k' =>
      simp only [sliceChunksAux] at hw
      exact ih (x :: acc) k' (by simp at hk ⊢; omega) w hw

theorem sliceChunks_length_le {α : Type} (n : Nat) (hn : 1 ≤ n) (l : List α) :
    ∀ w ∈ sliceChunks n l, w.length ≤ n :=
  sliceChunksAux_length_le n hn l [] n (by simp)

theorem enforce_token_limit_bound (tok : Tok) (maxTokens : Nat)
    (hn : 1 ≤ maxTokens)
    (hrt : ∀ ids : List Nat, (tok.encode (tok.decode ids)).length ≤ ids.length)
    (text : String) :
    ∀ c ∈ enforce_token_limit tok text maxTokens, (tok.encode c).length ≤ maxTokens := by
  intro c hc
  by_cases h : (tok.encode text).length ≤ maxTokens
  · simp only [enforce_token_limit, if_pos h, List.mem_singleton] at hc
    subst hc
    exact h
  · simp only [enforce_token_limit, if_neg h] at hc
    rcases List.mem_map.1 hc with ⟨w, hw, rfl⟩
    exact le_trans (hrt w) (sliceChunks_length_le maxTokens hn _ w hw)

theorem hardSplitParagraph_bound (tok : Tok) (maxTokens : Nat)
    (hn : 1 ≤ maxTokens)
    (hrt : ∀ ids : List Nat, (tok.encode (tok.decode ids)).length ≤ ids.length)
    (paragraph : String) :
    ∀ c ∈ hardSplitParagraph tok paragraph maxTokens, (tok.encode c).length ≤ maxTokens := by
  intro c hc
  rcases List.mem_flatMap.1 hc with ⟨s, _, hcs⟩
  exact enforce_token_limit_bound tok maxTokens hn hrt s c hcs

theorem splitLoop_bound (tok : Tok) (maxTokens : Nat)
    (hn : 1 ≤ maxTokens)
    (hrt : ∀ ids : List Nat, (tok.encode (tok.decode ids)).length ≤ ids.length) :
    ∀ (ps : List String) (current : String) (chunks : List String),
      (∀ c ∈ chunks, (tok.encode c).length ≤ maxTokens) →
      (current.isEmpty = true ∨ (tok.encode current).length < maxTokens) →
      ∀ c ∈ splitLoop tok maxTokens ps current chunks, (tok.encode c).length ≤ maxTokens := by
  intro ps
  induction ps with
  | nil =>
    intro current chunks hchunks hcur c hc
    by_cases hemp : current.isEmpty = true
    · simp only [splitLoop, if_pos hemp] at hc
      exact hchunks c hc
    · simp only [splitLoop, if_neg hemp] at hc
      rcases List.mem_append.1 hc with h | h
      · exact hchunks c h
      · simp at h
        subst h
        rcases hcur with h | h
        · exact absurd h hemp
        · omega
  | cons p ps ih =>
    intro current chunks hchunks hcur c hc
    have hflush : ∀ d ∈ (if current.isEmpty then chunks else chunks ++ [current]),
        (tok.encode d).length ≤ maxTokens := by
      intro d hd
      by_cases hemp : current.isEmpty = true
      · rw [if_pos hemp] at hd
        exact hchunks d hd
      · rw [if_neg hemp] at hd
        rcases List.mem_append.1 hd with h | h
        · exact hchunks d h
        · simp at h
          subst h
          rcases hcur with h3 | h3
          · exact absurd h3 hemp
          · omega
    simp only [splitLoop] at hc
    by_cases hge : maxTokens ≤
        (tok.encode (if current.isEmpty then p else current ++ "\n\n" ++ p)).length
    · rw [if_pos hge] at hc
      refine ih "" _ ?_ (Or.inl rfl) c hc
      intro d hd
      rcases List.mem_append.1 hd with h | h
      · exact hflush d h
      · exact hardSplitParagraph_bound tok maxTokens hn hrt p d h
    · rw [if_neg hge] at hc
      exact ih _ chunks hchunks (Or.inr (by omega)) c hc

/-- C1 (amended): for `maxTokens ≥ 1` and a tokenizer whose
decode-then-encode round trip does not increase the number of tokens,
every chunk produced by `split_markdown_into_chunks` encodes to at most
`maxTokens` tokens. -/
theorem c1_chunk_token_bound (tok : Tok) (content : String) (maxTokens : Nat)
    (hn : 1 ≤ maxTokens)
    (hrt : ∀ ids : List Nat, (tok.encode (tok.decode ids)).length ≤ ids.length) :
    ∀ c ∈ split_markdown_into_chunks tok content maxTokens,
      (tok.encode c).length ≤ maxTokens := by
  intro c hc
  exact splitLoop_bound tok maxTokens hn hrt (rustSplitPara content) "" []
    (by intro d hd; simp at hd) (Or.inl rfl) c hc

/-- A tokenizer whose ids are exactly the characters; its round trip is
the identity, so it satisfies the non-expansion hypothesis. -/
def idTok : Tok where
  encode s := s.data.map Char.toNat
  decode ids := String.mk (ids.map Char.ofNat)

/-- C1 witness: the amended bound evaluated on `idTok`, text "hi",
`maxTokens = 5` (where "hi" is itself the single output chunk). -/
theorem c1_chunk_token_bound_witness : (idTok.encode "hi").length ≤ 5 :=
  c1_chunk_token_bound idTok "hi" 5 (by decide)
    (fun ids => by simp [idTok, String.mk]) "hi" (by decide)

/-- A BERT-style tokenizer: `encode` wraps the character tokens (shifted
by 2) between special tokens 0 and 1; `decode` skips the special tokens,
exactly as `decode(ids, true)` does. -/
def bertLikeTok : Tok where
  encode s := 0 :: s.data.map (fun c => c.toNat + 2) ++ [1]
  decode ids := String.mk ((ids.filter (fun i => 2 ≤ i)).map (fun i => Char.ofNat (i - 2)))

/-- C1 counterexample: with a tokenizer that re-adds special tokens on
encoding (as the BERT-family tokenizers the server loads do), a
hard-split slice re-encodes to more than `max_tokens` tokens: on input
"ab" with `max_tokens = 2`, the chunk "a" encodes to 3 tokens. -/
theorem c1_chunk_token_bound_cex :
    ¬ (∀ c ∈ split_markdown_into_chunks bertLikeTok "ab" 2,
        (bertLikeTok.encode c).length ≤ 2) := by
  decide

/-! ## The parser fetch with retry (`fetch_markdown_with_retry`, db_operations.rs lines 142-187)

The HTTP layer is an oracle `resp : Nat → ParserResponse` giving the
outcome of the POST at each attempt number, and the random jitter is an
oracle `jitter : Nat → Nat` (`fastrand::u64(0..100)` drawn before the
sleep after the given attempt). The function returns the loop's result
together with the list of sleep durations (in milliseconds) it performed,
in order.
-/

/-- The parsed `document` field of a successful parser response. -/
structure Document where
  filename : String
  md_content : String
  text_content : Option String
deriving DecidableEq, Repr

/-- Outcome of one `http.post(...).send().await`: either the request
fails at the connection level, or a response with a status code arrives
whose body decodes to a `DoclingResponse` or fails to decode. -/
inductive ParserResponse where
  | connFail : ParserResponse
  | http : Nat → Except String Document → ParserResponse

/-- The errors `fetch_markdown_with_retry` can return, by source site. -/
inductive FetchError where
  | requestFailed : Nat → FetchError
  | decodeFailed : FetchError
  | badStatus : Nat → Nat → FetchError
deriving DecidableEq, Repr

/-- `resp.status().is_success()`: the 2xx range. -/
def isSuccessStatus (s : Nat) : Bool := 200 ≤ s ∧ s < 300

/-- The retry loop body. `attempt` is the already-incremented attempt
counter; `waits` accumulates the sleeps performed so far. `fuel` is an
artifact making the recursion structural: the wrapper passes
`fuel = maxRetries`, which the `maxRetries ≤ attempt` check makes
sufficient, so the fuel-exhaustion arm is unreachable. -/
def fetchGo (resp : Nat → ParserResponse) (jitter : Nat → Nat)
    (maxRetries base : Nat) :
    Nat → Nat → List Nat → Except FetchError Document × List Nat
  | fuel, attempt, waits =>
    match resp attempt with
    | ParserResponse.connFail => (Except.error (FetchError.requestFailed attempt), waits)
    | ParserResponse.http s body =>
      if isSuccessStatus s then
        match body with
        | Except.ok d => (Except.ok d, waits)
        | Except.error _ => (Except.error FetchError.decodeFailed, waits)
      else if maxRetries ≤ attempt then
        (Except.error (FetchError.badStatus s attempt), waits)
      else
        match fuel with
        | 0 => (Except.error (FetchError.badStatus s attempt), waits)
        | Nat.succ f =>
          fetchGo resp jitter maxRetries base f (attempt + 1)
            (waits ++ [base * 2 ^ (attempt - 1) + jitter attempt])

/-- `fetch_markdown_with_retry`: attempt numbering starts at 1. -/
def fetch_markdown_with_retry (resp : Nat → ParserResponse) (jitter : Nat → Nat)
    (maxRetries : Nat) (base : Nat) : Except FetchError Document × List Nat :=
  fetchGo resp jitter maxRetries base maxRetries 1 []

/-! ### C2 theorems -/

/-- A parser that fails at the connection level on attempt 1 and would
answer 2xx on every later attempt. -/
def connFailThenOk : Nat → ParserResponse := fun a =>
  if a = 1 then ParserResponse.connFail
  else ParserResponse.http 200 (Except.ok ⟨"f", "md", none⟩)

/-- C2 counterexample: the claim says a connection-level failure is
retried and an error is returned only after the 3-attempt budget is
exhausted. With a connection failure on attempt 1 and a 2xx available on
attempt 2, the code returns the attempt-1 error immediately and performs
no backoff sleep at all. -/
theorem c2_retry_cex :
    fetch_markdown_with_retry connFailThenOk (fun _ => 0) 3 400
        = (Except.error (FetchError.requestFailed 1), [])
      ∧ connFailThenOk 2 = ParserResponse.http 200 (Except.ok ⟨"f", "md", none⟩)
      ∧ isSuccessStatus 200 = true :=
  ⟨rfl, rfl, rfl⟩

/-- C2 (amended): with `max_retries = 3` and `base_backoff = 400`,
(a) a connection-level failure on the first attempt returns an error
immediately, with no retry and no sleep; (b) at most two sleeps (three
attempts) ever happen; (c) the i-th sleep (0-based) lasts
`400·2^i + jitter` milliseconds with the jitter drawn below 100; (d) if
all three attempts return a non-2xx status, the result is the status
error of attempt 3 after exactly two sleeps. -/
theorem c2_retry_behavior (resp : Nat → ParserResponse) (jitter : Nat → Nat)
    (hj : ∀ k, jitter k < 100) :
    (resp 1 = ParserResponse.connFail →
      fetch_markdown_with_retry resp jitter 3 400
        = (Except.error (FetchError.requestFailed 1), []))
    ∧ (fetch_markdown_with_retry resp jitter 3 400).2.length ≤ 2
    ∧ (∀ i, i < (fetch_markdown_with_retry resp jitter 3 400).2.length →
        (fetch_markdown_with_retry resp jitter 3 400).2.getD i 0
            = 400 * 2 ^ i + jitter (i + 1)
          ∧ jitter (i + 1) < 100)
    ∧ ((∀ a, 1 ≤ a → a ≤ 3 →
          ∃ s b, resp a = ParserResponse.http s b ∧ isSuccessStatus s = false) →
        ∃ s, (fetch_markdown_with_retry resp jitter 3 400).1
            = Except.error (FetchError.badStatus s 3)
          ∧ (fetch_markdown_with_retry resp jitter 3 400).2.length = 2) := by
  have hunfold : fetch_markdown_with_retry resp jitter 3 400
      = fetchGo resp jitter 3 400 3 1 [] := rfl
  rcases h1 : resp 1 with _ | ⟨s1, b1⟩
  · -- connection failure on attempt 1
    have hr : fetch_markdown_with_retry resp jitter 3 400
        = (Except.error (FetchError.requestFailed 1), []) := by
      rw [hunfold]
      simp [fetchGo, h1]
    have hlen : (fetch_markdown_with_retry resp jitter 3 400).2.length = 0 := by
      rw [hr]
      rfl
    refine ⟨fun _ => hr, by simp [hlen], ?_, ?_⟩
    · intro i h
      rw [hlen] at h
      omega
    · intro hall
      obtain ⟨s, b, he, _⟩ := hall 1 (by omega) (by omega)
      rw [h1] at he
      exact absurd he (by simp)
  · rcases hs1 : isSuccessStatus s1 with _ | _
    · -- attempt 1: non-2xx, sleep, attempt 2
      have hstep1 : fetch_markdown_with_retry resp jitter 3 400
          = fetchGo resp jitter 3 400 2 2 [400 * 2 ^ 0 + jitter 1] := by
        rw [hunfold]
        simp [fetchGo, h1, hs1]
      rcases h2 : resp 2 with _ | ⟨s2, b2⟩
      · -- connection failure on attempt 2
        have hr : fetch_markdown_with_retry resp jitter 3 400
            = (Except.error (FetchError.requestFailed 2), [400 * 2 ^ 0 + jitter 1]) := by
          rw [hstep1]
          simp [fetchGo, h2]
        have hlen : (fetch_markdown_with_retry resp jitter 3 400).2.length = 1 := by
          rw [hr]
          rfl
        refine ⟨?_, by simp [hlen], ?_, ?_⟩
        · intro hc
          exact absurd hc (by simp)
        · intro i h
          rw [hlen] at h
          have hi : i = 0 := by omega
          subst hi
          rw [hr]
          exact ⟨rfl, hj 1⟩
        · intro hall
          obtain ⟨s, b, he, _⟩ := hall 2 (by omega) (by omega)
          rw [h2] at he
          exact absurd he (by simp)
      · rcases hs2 : isSuccessStatus s2 with _ | _
        · -- attempt 2: non-2xx, sleep, attempt 3
          have hstep2 : fetch_markdown_with_retry resp jitter 3 400
              = fetchGo resp jitter 3 400 1 3
                  [400 * 2 ^ 0 + jitter 1, 400 * 2 ^ 1 + jitter 2] := by
            rw [hstep1]
            simp [fetchGo, h2, hs2]
          rcases h3 : resp 3 with _ | ⟨s3, b3⟩
          · -- connection failure on attempt 3
            have hr : fetch_markdown_with_retry resp jitter 3 400
                = (Except.error (FetchError.requestFailed 3),
                   [400 * 2 ^ 0 + jitter 1, 400 * 2 ^ 1 + jitter 2]) := by
              rw [hstep2]
              simp [fetchGo, h3]
            have hlen : (fetch_markdown_with_retry resp jitter 3 400).2.length = 2 := by
              rw [hr]
              rfl
            refine ⟨?_, by simp [hlen], ?_, ?_⟩
            · intro hc
              exact absurd hc (by simp)
            · intro i h
              rw [hlen] at h
              rw [hr]
              match i, h with
              | 0, _ => exact ⟨rfl, hj 1⟩
              | 1, _ => exact ⟨rfl, hj 2⟩
            · intro hall
              obtain ⟨s, b, he, _⟩ := hall 3 (by omega) (by omega)
              rw [h3] at he
              exact absurd he (by simp)
          · -- attempt 3: a status arrives; 2xx gives the body, else the
            -- final status error (3 ≤ 3, budget exhausted)
            have hr : fetch_markdown_with_retry resp jitter 3 400
                = (if isSuccessStatus s3 then
                     match b3 with
                     | Except.ok d => Except.ok d
                     | Except.error _ => Except.error FetchError.decodeFailed
                   else Except.error (FetchError.badStatus s3 3),
                   [400 * 2 ^ 0 + jitter 1, 400 * 2 ^ 1 + jitter 2]) := by
              rw [hstep2]
              rcases hs3 : isSuccessStatus s3 with _ | _
              · simp [fetchGo, h3, hs3]
              · rcases b3 with e | d <;> simp [fetchGo, h3, hs3]
            have hlen : (fetch_markdown_with_retry resp jitter 3 400).2.length = 2 := by
              rw [hr]
              rfl
            refine ⟨?_, by simp [hlen], ?_, ?_⟩
            · intro hc
              exact absurd hc (by simp)
            · intro i h
              rw [hlen] at h
              rw [hr]
              match i, h with
              | 0, _ => exact ⟨rfl, hj 1⟩
              | 1, _ => exact ⟨rfl, hj 2⟩
            · intro hall
              obtain ⟨s, b, he, hns⟩ := hall 3 (by omega) (by omega)
              rw [h3] at he
              have hs : s3 = s := by
                cases he
                rfl
              subst hs
              refine ⟨s3, ?_, hlen⟩
              rw [hr]
              simp [hns]
        · -- attempt 2 succeeded (2xx)
          have hr : fetch_markdown_with_retry resp jitter 3 400
              = (match b2 with
                 | Except.ok d => Except.ok d
                 | Except.error _ => Except.error FetchError.decodeFailed,
                 [400 * 2 ^ 0 + jitter 1]) := by
            rw [hstep1]
            rcases b2 with e | d <;> simp [fetchGo, h2, hs2]
          have hlen : (fetch_markdown_with_retry resp jitter 3 400).2.length = 1 := by
            rw [hr]
            rcases b2 with e | d <;> rfl
          refine ⟨?_, by simp [hlen], ?_, ?_⟩
          · intro hc
            exact absurd hc (by simp)
          · intro i h
            rw [hlen] at h
            have hi : i = 0 := by omega
            subst hi
            rw [hr]
            rcases b2 with e | d
            · exact ⟨rfl, hj 1⟩
            · exact ⟨rfl, hj 1⟩
          · intro hall
            obtain ⟨s, b, he, hns⟩ := hall 2 (by omega) (by omega)
            rw [h2] at he
            have hs : s2 = s := by
              cases he
              rfl
            subst hs
            rw [hs2] at hns
            exact absurd hns (by simp)
    · -- attempt 1 succeeded (2xx)
      have hr : fetch_markdown_with_retry resp jitter 3 400
          = (match b1 with
             | Except.ok d => Except.ok d
             | Except.error _ => Except.error FetchError.decodeFailed, []) := by
        rw [hunfold]
        rcases b1 with e | d <;> simp [fetchGo, h1, hs1]
      have hlen : (fetch_markdown_with_retry resp jitter 3 400).2.length = 0 := by
        rw [hr]
        rcases b1 with e | d <;> rfl
      refine ⟨?_, by simp [hlen], ?_, ?_⟩
      · intro hc
        exact absurd hc (by simp)
      · intro i h
        rw [hlen] at h
        omega
      · intro hall
        obtain ⟨s, b, he, hns⟩ := hall 1 (by omega) (by omega)
        rw [h1] at he
        have hs : s1 = s := by
          cases he
          rfl
        subst hs
        rw [hs1] at hns
        exact absurd hns (by simp)


/-- C2 witness: the amended behavior applied to a parser that always
answers 503: the result is the status error of attempt 3 after two
sleeps of 400+0 and 800+0 milliseconds. -/
theorem c2_retry_behavior_witness :
    ∃ s, (fetch_markdown_with_retry (fun _ => ParserResponse.http 503 (Except.error "e"))
            (fun _ => 0) 3 400).1
        = Except.error (FetchError.badStatus s 3)
      ∧ (fetch_markdown_with_retry (fun _ => ParserResponse.http 503 (Except.error "e"))
            (fun _ => 0) 3 400).2.length = 2 :=
  (c2_retry_behavior (fun _ => ParserResponse.http 503 (Except.error "e"))
      (fun _ => 0) (fun _ => by simp)).2.2.2
    (fun a _ _ => ⟨503, Except.error "e", rfl, rfl⟩)

/-! ## The ingestion tick (`process_new_files`, db_operations.rs lines 51-140)

The file record carries the fields the loop touches. The snapshot of
`lib-core/src/model/files.rs` in this repository predates the `processed`
column, so the record shape and the `get_unprocessed_files` DAO are
modelled from the spec (File record `{file_id, applicant, filename,
file_type, created_at, processed}`; `get_unprocessed_files()` returns
the rows with `processed = false`). Everything else is translated from
`process_new_files` itself.

External fallible calls are an oracle: `presign` is
`generate_presigned_url`, `fetchDoc` the awaited result of
`fetch_markdown_with_retry`, `stripImages` the image-markdown regex
`replace_all`, `embed` is `embedder.embed(..)[0]`, `insertChunk` the
database acknowledgement of `FileChunkMac::create_chunk`, `updateFile`
that of `FileMac::update_file`. Each `?` in the Rust loop is an early
return carrying the state mutated so far.
-/

/-- A catalog row as the ingestion loop sees it. -/
structure FileRow where
  file_id : String
  filename : String
  processed : Bool
deriving DecidableEq, Repr

/-- A `file_chunks` row as built by the loop. -/
structure ChunkRow where
  file_id : String
  chunk_index : Nat
  content_md : String
  embedding : List Int
  token_count : Nat
deriving DecidableEq, Repr

/-- The external effects `process_new_files` performs, as oracles. -/
structure IngestOracle where
  presign : String → Except String String
  fetchDoc : String → String → Except String Document
  stripImages : String → String
  embed : String → Except String (List Int)
  insertChunk : ChunkRow → Except String Unit
  updateFile : String → Except String Unit

/-- The database state the tick mutates. -/
structure IngestState where
  files : List FileRow
  chunks : List ChunkRow
deriving DecidableEq, Repr

/-- `FileMac::update_file(file_id, {processed: Some(true), ..})` applied
to the rows: sets the flag on the matching row. -/
def markProcessed (rows : List FileRow) (fid : String) : List FileRow :=
  rows.map (fun r => if r.file_id = fid then { r with processed := true } else r)

/-- The inner chunk loop: embed each chunk, then insert it with its
token count (`encode(chunk, true).len()`); the first failing step stops
the loop, keeping the rows already inserted. -/
def embedChunks (o : IngestOracle) (tok : Tok) (fid : String) :
    Nat → List String → List ChunkRow × Option String
  | _, [] => ([], none)
  | i, c :: cs =>
    match o.embed c with
    | Except.error e => ([], some e)
    | Except.ok emb =>
      let row : ChunkRow := ⟨fid, i, c, emb, (tok.encode c).length⟩
      match o.insertChunk row with
      | Except.error e => ([], some e)
      | Except.ok _ =>
        let r := embedChunks o tok fid (i + 1) cs
        (row :: r.1, r.2)

/-- One iteration of the per-file loop: returns the chunk rows it
inserted, whether it set `processed = true`, and the first error hit
(`None` on clean completion or on the empty-chunks `continue`). -/
def processFile (tok : Tok) (maxTokens : Nat) (o : IngestOracle) (f : FileRow) :
    List ChunkRow × Bool × Option String :=
  match o.presign f.filename with
  | Except.error e => ([], false, some e)
  | Except.ok url =>
    match o.fetchDoc f.filename url with
    | Except.error e => ([], false, some e)
    | Except.ok doc =>
      let text := o.stripImages (doc.text_content.getD "")
      let raw := split_markdown_into_chunks tok text maxTokens
      if raw.isEmpty then ([], false, none)
      else
        let r := embedChunks o tok f.file_id 0 raw
        match r.2 with
        | some e => (r.1, false, some e)
        | none =>
          match o.updateFile f.file_id with
          | Except.error e => (r.1, false, some e)
          | Except.ok _ => (r.1, true, none)

/-- The `for file in new_files` loop: each `?` aborts the whole tick,
returning the error and the database state mutated so far. -/
def goFiles (tok : Tok) (maxTokens : Nat) (o : IngestOracle) :
    List FileRow → IngestState → IngestState × Option String
  | [], st => (st, none)
  | f :: fs, st =>
    let d := processFile tok maxTokens o f
    let st1 : IngestState :=
      ⟨if d.2.1 then markProcessed st.files f.file_id else st.files, st.chunks ++ d.1⟩
    match d.2.2 with
    | some e => (st1, some e)
    | none => goFiles tok maxTokens o fs st1

/-- Modelled from the spec: `get_unprocessed_files()` (absent from the
`files.rs` snapshot in this repository) returns the catalog rows with
`processed = false`. -/
def get_unprocessed_files (st : IngestState) : List FileRow :=
  st.files.filter (fun f => !f.processed)

/-- `process_new_files`: run the per-file loop over the unprocessed
rows. -/
def process_new_files (tok : Tok) (maxTokens : Nat) (o : IngestOracle)
    (st : IngestState) : IngestState × Option String :=
  goFiles tok maxTokens o (get_unprocessed_files st) st

/-! ### C3 theorems -/

theorem processFile_mark_of_err (tok : Tok) (maxTokens : Nat) (o : IngestOracle)
    (f : FileRow) (e : String)
    (h : (processFile tok maxTokens o f).2.2 = some e) :
    (processFile tok maxTokens o f).2.1 = false := by
  unfold processFile at h ⊢
  rcases hp : o.presign f.filename with e1 | url
  · simp [hp]
  · simp only [hp] at h ⊢
    rcases hd : o.fetchDoc f.filename url with e2 | doc
    · simp [hd]
    · simp only [hd] at h ⊢
      by_cases hraw : (split_markdown_into_chunks tok
          (o.stripImages (doc.text_content.getD "")) maxTokens).isEmpty
      · simp [hraw]
      · simp only [if_neg hraw] at h ⊢
        rcases hr : (embedChunks o tok f.file_id 0
            (split_markdown_into_chunks tok
              (o.stripImages (doc.text_content.getD "")) maxTokens)).2 with _ | e3
        · simp only [hr] at h ⊢
          rcases hu : o.updateFile f.file_id with e4 | u
          · simp [hu]
          · simp only [hu] at h
            exact absurd h (by simp)
        · simp [hr]

theorem goFiles_first_error (tok : Tok) (maxTokens : Nat) (o : IngestOracle) :
    ∀ (pre : List FileRow) (f : FileRow) (post : List FileRow) (st : IngestState)
      (e : String),
      (∀ g ∈ pre, (processFile tok maxTokens o g).2.2 = none) →
      (processFile tok maxTokens o f).2.2 = some e →
      (goFiles tok maxTokens o (pre ++ f :: post) st).2 = some e
      ∧ (goFiles tok maxTokens o (pre ++ f :: post) st).1.files
          = (pre.filter (fun g => (processFile tok maxTokens o g).2.1)).foldl
              (fun rows g => markProcessed rows g.file_id) st.files := by
  intro pre
  induction pre with
  | nil =>
    intro f post st e _ hf
    have hmark := processFile_mark_of_err tok maxTokens o f e hf
    constructor
    · show (goFiles tok maxTokens o ([] ++ f :: post) st).2 = some e
      simp only [List.nil_append, goFiles, hf]
    · show (goFiles tok maxTokens o ([] ++ f :: post) st).1.files = _
      simp only [List.nil_append, goFiles, hf, List.filter_nil, List.foldl_nil]
      rw [hmark]
      simp
  | cons g gs ih =>
    intro f post st e hpre hf
    have hg : (processFile tok maxTokens o g).2.2 = none := hpre g (by simp)
    have hgs : ∀ g2 ∈ gs, (processFile tok maxTokens o g2).2.2 = none := by
      intro g2 hg2
      exact hpre g2 (by simp [hg2])
    have hrec := ih f post
      ⟨if (processFile tok maxTokens o g).2.1 then markProcessed st.files g.file_id
        else st.files, st.chunks ++ (processFile tok maxTokens o g).1⟩ e hgs hf
    have hgo : goFiles tok maxTokens o ((g :: gs) ++ f :: post) st
        = goFiles tok maxTokens o (gs ++ f :: post)
            ⟨if (processFile tok maxTokens o g).2.1 then markProcessed st.files g.file_id
              else st.files, st.chunks ++ (processFile tok maxTokens o g).1⟩ := by
      rw [List.cons_append]
      simp only [goFiles, hg]
    rw [hgo]
    refine ⟨hrec.1, ?_⟩
    rw [hrec.2]
    by_cases hm : (processFile tok maxTokens o g).2.1 = true
    · have hfil : List.filter (fun g2 => (processFile tok maxTokens o g2).2.1) (g :: gs)
          = g :: List.filter (fun g2 => (processFile tok maxTokens o g2).2.1) gs := by
        simp [List.filter_cons, hm]
      rw [hfil, List.foldl_cons, if_pos hm]
    · have hm2 : (processFile tok maxTokens o g).2.1 = false := by
        revert hm
        cases (processFile tok maxTokens o g).2.1 <;> simp
      have hfil : List.filter (fun g2 => (processFile tok maxTokens o g2).2.1) (g :: gs)
          = List.filter (fun g2 => (processFile tok maxTokens o g2).2.1) gs := by
        simp [List.filter_cons, hm2]
      rw [hfil, if_neg (by simp [hm2])]

/-- C3 (amended): when handling one unprocessed file fails, that file's
`processed` flag is not set, but — contrary to the claim — the tick
aborts: `process_new_files` returns that first error, only the earlier,
successfully completed files of the list are marked processed, and the
failing file and everything after it are left untouched. -/
theorem c3_failure_aborts_tick (tok : Tok) (maxTokens : Nat) (o : IngestOracle)
    (st : IngestState) (pre : List FileRow) (f : FileRow) (post : List FileRow)
    (e : String)
    (hsplit : get_unprocessed_files st = pre ++ f :: post)
    (hpre : ∀ g ∈ pre, (processFile tok maxTokens o g).2.2 = none)
    (hf : (processFile tok maxTokens o f).2.2 = some e) :
    (process_new_files tok maxTokens o st).2 = some e
    ∧ (processFile tok maxTokens o f).2.1 = false
    ∧ (process_new_files tok maxTokens o st).1.files
        = (pre.filter (fun g => (processFile tok maxTokens o g).2.1)).foldl
            (fun rows g => markProcessed rows g.file_id) st.files := by
  have h := goFiles_first_error tok maxTokens o pre f post st e hpre hf
  refine ⟨?_, processFile_mark_of_err tok maxTokens o f e hf, ?_⟩
  · unfold process_new_files
    rw [hsplit]
    exact h.1
  · unfold process_new_files
    rw [hsplit]
    exact h.2

/-- Two unprocessed catalog rows. -/
def fileA : FileRow := ⟨"id1", "a.pdf", false⟩

/-- See `fileA`. -/
def fileB : FileRow := ⟨"id2", "b.pdf", false⟩

/-- An oracle under which handling `a.pdf` fails at the presign step and
everything else succeeds. -/
def presignFailsOnA : IngestOracle where
  presign name := if name = "a.pdf" then Except.error "presign url failed" else Except.ok "url"
  fetchDoc _ _ := Except.ok ⟨"b.pdf", "md", some "hello"⟩
  stripImages s := s
  embed _ := Except.ok [1]
  insertChunk _ := Except.ok ()
  updateFile _ := Except.ok ()

/-- C3 counterexample: with `a.pdf` failing at presign and `b.pdf`
processable (its per-file run would succeed and set the flag), the tick
returns the presign error, leaving the database untouched — `b.pdf` is
never reached, so processing does not continue with the next unprocessed
file. -/
theorem c3_continue_on_error_cex :
    (process_new_files idTok 100 presignFailsOnA ⟨[fileA, fileB], []⟩).2
        = some "presign url failed"
    ∧ (process_new_files idTok 100 presignFailsOnA ⟨[fileA, fileB], []⟩).1
        = ⟨[fileA, fileB], []⟩
    ∧ (processFile idTok 100 presignFailsOnA fileB).2.1 = true :=
  ⟨rfl, rfl, rfl⟩

/-- C3 witness: the amended theorem applied to the concrete two-file
database with the presign failure on the first file. -/
theorem c3_failure_aborts_tick_witness :
    (process_new_files idTok 100 presignFailsOnA ⟨[fileA, fileB], []⟩).2
        = some "presign url failed"
    ∧ (processFile idTok 100 presignFailsOnA fileA).2.1 = false
    ∧ (process_new_files idTok 100 presignFailsOnA ⟨[fileA, fileB], []⟩).1.files
        = (([] : List FileRow).filter
            (fun g => (processFile idTok 100 presignFailsOnA g).2.1)).foldl
            (fun rows g => markProcessed rows g.file_id) [fileA, fileB] :=
  c3_failure_aborts_tick idTok 100 presignFailsOnA ⟨[fileA, fileB], []⟩ [] fileA [fileB]
    "presign url failed" rfl (by simp) rfl

/-! ## Catalog reconciliation (`sync_s3_files`, db_operations.rs lines 189-228)

The `files` table is a list of rows plus the primary-key sequence
`next_id`. Three facts about it are schema-level and absent from the
source tree, so they are modelled from the spec: the filename unique
constraint (spec: "`filename` unique"), `processed = false` on insert,
and the generated primary key. `FileMac::create_file` itself
(files.rs lines 42-58) runs a plain INSERT and propagates every database
error — including a unique violation — through `?`.
-/

/-- A `files` row with the columns reconciliation touches. -/
structure DbFile where
  file_id : Nat
  applicant : String
  filename : String
  file_type : String
  processed : Bool
deriving DecidableEq, Repr

/-- The `files` table: rows plus the primary-key sequence. -/
structure Db where
  rows : List DbFile
  next_id : Nat
deriving DecidableEq, Repr

/-- The `FileForCreate` payload built by `sync_s3_files`. -/
structure FileForCreate where
  applicant : String
  filename : String
  file_type : String
deriving DecidableEq, Repr

/-- Database-side errors surfaced to `create_file`. -/
inductive DbError where
  | uniqueViolation : DbError
deriving DecidableEq, Repr

/-- `FileMac::create_file`: INSERT returning the row. The unique check
and the defaults are the schema behaviour (Modelled from the spec:
filename unique, `processed=false`, generated pk); the Rust function
propagates the violation as an error. -/
def create_file (db : Db) (f : FileForCreate) : Except DbError (Db × DbFile) :=
  if db.rows.any (fun r => r.filename == f.filename) then
    Except.error DbError.uniqueViolation
  else
    let row : DbFile := ⟨db.next_id, f.applicant, f.filename, f.file_type, false⟩
    Except.ok (⟨db.rows ++ [row], db.next_id + 1⟩, row)

/-- `FileMac::delete_file`: DELETE by primary key. -/
def delete_file (db : Db) (fid : Nat) : Db :=
  ⟨db.rows.filter (fun r => !(r.file_id == fid)), db.next_id⟩

/-- `s3_file.split('.').last().unwrap_or("unknown")`: the last
'.'-separated segment (the `unwrap_or` arm is dead since Rust's `split`
always yields at least one piece). -/
def fileTypeOf (s : String) : String :=
  (rustSplitDot s).getLast?.getD "unknown"

/-- The first loop of `sync_s3_files`: for each listed object whose name
is not in the catalog snapshot, insert a row; a create error aborts. -/
def syncInserts (snapshot : List DbFile) : List String → Db → Except DbError Db
  | [], cur => Except.ok cur
  | s :: ss, cur =>
    if snapshot.any (fun r => r.filename == s) then syncInserts snapshot ss cur
    else
      match create_file cur ⟨"default_applicant", s, fileTypeOf s⟩ with
      | Except.error e => Except.error e
      | Except.ok (cur2, _) => syncInserts snapshot ss cur2

/-- The second loop of `sync_s3_files`: delete every snapshot row whose
filename is absent from the store listing. -/
def syncDeletes (s3 : List String) : List DbFile → Db → Db
  | [], cur => cur
  | r :: rs, cur =>
    if s3.contains r.filename then syncDeletes s3 rs cur
    else syncDeletes s3 rs (delete_file cur r.file_id)

/-- `sync_s3_files`: list the bucket, snapshot the catalog, insert the
missing rows, then delete the extraneous ones. -/
def sync_s3_files (db : Db) (s3 : List String) : Except DbError Db :=
  match syncInserts db.rows s3 db with
  | Except.error e => Except.error e
  | Except.ok db1 => Except.ok (syncDeletes s3 db.rows db1)

/-! ### C5/C6 lemmas -/

theorem syncInserts_mono (snapshot : List DbFile) :
    ∀ (ss : List String) (cur cur2 : Db),
      syncInserts snapshot ss cur = Except.ok cur2 →
      (∀ r ∈ cur.rows, r ∈ cur2.rows) ∧ cur.next_id ≤ cur2.next_id := by
  intro ss
  induction ss with
  | nil =>
    intro cur cur2 h
    simp only [syncInserts, Except.ok.injEq] at h
    subst h
    exact ⟨fun r hr => hr, le_refl _⟩
  | cons s ss ih =>
    intro cur cur2 h
    simp only [syncInserts] at h
    split at h
    · exact ih cur cur2 h
    · rcases hc : create_file cur ⟨"default_applicant", s, fileTypeOf s⟩ with e | ⟨cur1, row⟩
      · rw [hc] at h
        exact absurd h (by simp)
      · rw [hc] at h
        unfold create_file at hc
        split at hc
        · exact absurd hc (by simp)
        · simp only [Except.ok.injEq, Prod.mk.injEq] at hc
          obtain ⟨hcur1, -⟩ := hc
          have hrec := ih cur1 cur2 h
          refine ⟨fun r hr => hrec.1 r ?_, ?_⟩
          · rw [← hcur1]
            simp [hr]
          · have h2 := hrec.2
            rw [← hcur1] at h2
            simp at h2
            omega

theorem syncInserts_provenance (snapshot : List DbFile) :
    ∀ (ss : List String) (cur cur2 : Db),
      syncInserts snapshot ss cur = Except.ok cur2 →
      ∀ r ∈ cur2.rows, r ∈ cur.rows
        ∨ (cur.next_id ≤ r.file_id ∧ r.filename ∈ ss
            ∧ r.applicant = "default_applicant"
            ∧ r.file_type = fileTypeOf r.filename ∧ r.processed = false) := by
  intro ss
  induction ss with
  | nil =>
    intro cur cur2 h
    simp only [syncInserts, Except.ok.injEq] at h
    subst h
    exact fun r hr => Or.inl hr
  | cons s ss ih =>
    intro cur cur2 h
    simp only [syncInserts] at h
    split at h
    · intro r hr
      rcases ih cur cur2 h r hr with h1 | h1
      · exact Or.inl h1
      · exact Or.inr ⟨h1.1, by simp [h1.2.1], h1.2.2⟩
    · rcases hc : create_file cur ⟨"default_applicant", s, fileTypeOf s⟩ with e | ⟨cur1, row⟩
      · rw [hc] at h
        exact absurd h (by simp)
      · rw [hc] at h
        unfold create_file at hc
        split at hc
        · exact absurd hc (by simp)
        · simp only [Except.ok.injEq, Prod.mk.injEq] at hc
          obtain ⟨hcur1, -⟩ := hc
          intro r hr
          rcases ih cur1 cur2 h r hr with h1 | h1
          · rw [← hcur1] at h1
            simp only [List.mem_append, List.mem_singleton] at h1
            rcases h1 with h2 | h2
            · exact Or.inl h2
            · subst h2
              exact Or.inr ⟨le_refl _, by simp, rfl, rfl, rfl⟩
          · rw [← hcur1] at h1
            simp only at h1
            exact Or.inr ⟨by omega, by simp [h1.2.1], h1.2.2⟩

theorem syncInserts_coverage (snapshot : List DbFile) :
    ∀ (ss : List String) (cur cur2 : Db),
      (∀ r ∈ snapshot, r ∈ cur.rows) →
      syncInserts snapshot ss cur = Except.ok cur2 →
      ∀ s ∈ ss, ∃ r ∈ cur2.rows, r.filename = s := by
  intro ss
  induction ss with
  | nil =>
    intro cur cur2 _ _ s hs
    simp at hs
  | cons s1 ss ih =>
    intro cur cur2 hsnap h
    simp only [syncInserts] at h
    split at h
    · rename_i hfound
      intro s hs
      rcases List.mem_cons.1 hs with rfl | hs2
      · obtain ⟨d, hd, hdf⟩ := List.any_eq_true.1 hfound
        refine ⟨d, (syncInserts_mono snapshot ss cur cur2 h).1 d (hsnap d hd), ?_⟩
        exact eq_of_beq hdf
      · exact ih cur cur2 hsnap h s hs2
    · rcases hc : create_file cur ⟨"default_applicant", s1, fileTypeOf s1⟩ with e | ⟨cur1, row⟩
      · rw [hc] at h
        exact absurd h (by simp)
      · rw [hc] at h
        unfold create_file at hc
        split at hc
        · exact absurd hc (by simp)
        · simp only [Except.ok.injEq, Prod.mk.injEq] at hc
          obtain ⟨hcur1, -⟩ := hc
          have hsnap1 : ∀ r ∈ snapshot, r ∈ cur1.rows := by
            intro r hr
            rw [← hcur1]
            simp [hsnap r hr]
          intro s hs
          rcases List.mem_cons.1 hs with rfl | hs2
          · refine ⟨⟨cur.next_id, "default_applicant", s, fileTypeOf s, false⟩,
              (syncInserts_mono snapshot ss cur1 cur2 h).1 _ ?_, rfl⟩
            rw [← hcur1]
            simp
          · exact ih cur1 cur2 hsnap1 h s hs2

theorem syncInserts_noop (snapshot : List DbFile) :
    ∀ (ss : List String) (cur : Db),
      (∀ s ∈ ss, snapshot.any (fun r => r.filename == s) = true) →
      syncInserts snapshot ss cur = Except.ok cur := by
  intro ss
  induction ss with
  | nil =>
    intro cur _
    rfl
  | cons s ss ih =>
    intro cur hall
    have hs : snapshot.any (fun r => r.filename == s) = true := hall s (by simp)
    simp only [syncInserts, hs, if_pos]
    exact ih cur (fun s2 hs2 => hall s2 (by simp [hs2]))

theorem syncDeletes_noop (s3 : List String) :
    ∀ (snapshot : List DbFile) (cur : Db),
      (∀ r ∈ snapshot, s3.contains r.filename = true) →
      syncDeletes s3 snapshot cur = cur := by
  intro snapshot
  induction snapshot with
  | nil =>
    intro cur _
    rfl
  | cons d ds ih =>
    intro cur hall
    have hd : s3.contains d.filename = true := hall d (by simp)
    simp only [syncDeletes, hd, if_pos]
    exact ih cur (fun r hr => hall r (by simp [hr]))

theorem syncDeletes_sub (s3 : List String) :
    ∀ (snapshot : List DbFile) (cur : Db),
      (∀ r ∈ (syncDeletes s3 snapshot cur).rows, r ∈ cur.rows)
      ∧ (syncDeletes s3 snapshot cur).next_id = cur.next_id := by
  intro snapshot
  induction snapshot with
  | nil =>
    intro cur
    exact ⟨fun r hr => hr, rfl⟩
  | cons d ds ih =>
    intro cur
    by_cases hd : s3.contains d.filename = true
    · simp only [syncDeletes, hd, if_pos]
      exact ih cur
    · have hd2 : s3.contains d.filename = false := by
        revert hd
        cases s3.contains d.filename <;> simp
      simp only [syncDeletes, hd2, Bool.false_eq_true, if_false]
      refine ⟨fun r hr => ?_, ((ih (delete_file cur d.file_id)).2.trans rfl)⟩
      have h1 := (ih (delete_file cur d.file_id)).1 r hr
      unfold delete_file at h1
      simp only [List.mem_filter] at h1
      exact h1.1

theorem syncDeletes_removes (s3 : List String) :
    ∀ (snapshot : List DbFile) (cur : Db) (d : DbFile),
      d ∈ snapshot → s3.contains d.filename = false →
      ∀ r ∈ (syncDeletes s3 snapshot cur).rows, r.file_id ≠ d.file_id := by
  intro snapshot
  induction snapshot with
  | nil =>
    intro cur d hd
    simp at hd
  | cons x xs ih =>
    intro cur d hd hdf r hr hid
    by_cases hx : s3.contains x.filename = true
    · simp only [syncDeletes, hx, if_pos] at hr
      rcases List.mem_cons.1 hd with rfl | hd2
      · rw [hx] at hdf
        exact absurd hdf (by simp)
      · exact ih cur d hd2 hdf r hr hid
    · have hx2 : s3.contains x.filename = false := by
        revert hx
        cases s3.contains x.filename <;> simp
      simp only [syncDeletes, hx2, Bool.false_eq_true, if_false] at hr
      rcases List.mem_cons.1 hd with rfl | hd2
      · have hsub := (syncDeletes_sub s3 xs (delete_file cur d.file_id)).1 r hr
        unfold delete_file at hsub
        simp only [List.mem_filter] at hsub
        have := hsub.2
        simp [hid] at this
      · exact ih (delete_file cur x.file_id) d hd2 hdf r hr hid

theorem syncDeletes_keeps (s3 : List String) :
    ∀ (snapshot : List DbFile) (cur : Db) (r : DbFile),
      r ∈ cur.rows →
      (∀ d ∈ snapshot, s3.contains d.filename = false → d.file_id ≠ r.file_id) →
      r ∈ (syncDeletes s3 snapshot cur).rows := by
  intro snapshot
  induction snapshot with
  | nil =>
    intro cur r hr _
    exact hr
  | cons x xs ih =>
    intro cur r hr hall
    by_cases hx : s3.contains x.filename = true
    · simp only [syncDeletes, hx, if_pos]
      exact ih cur r hr (fun d hd => hall d (by simp [hd]))
    · have hx2 : s3.contains x.filename = false := by
        revert hx
        cases s3.contains x.filename <;> simp
      simp only [syncDeletes, hx2, Bool.false_eq_true, if_false]
      refine ih (delete_file cur x.file_id) r ?_ (fun d hd => hall d (by simp [hd]))
      unfold delete_file
      simp only [List.mem_filter]
      refine ⟨hr, ?_⟩
      have hne := hall x (by simp) hx2
      simp
      omega

theorem pairwise_id_inj {rows : List DbFile}
    (h : rows.Pairwise (fun a b => a.file_id ≠ b.file_id)) :
    ∀ d ∈ rows, ∀ r ∈ rows, d.file_id = r.file_id → d = r := by
  induction rows with
  | nil =>
    intro d hd
    simp at hd
  | cons x xs ih =>
    intro d hd r hr heq
    have hx := List.pairwise_cons.1 h
    rcases List.mem_cons.1 hd with rfl | hd2
    · rcases List.mem_cons.1 hr with rfl | hr2
      · rfl
      · exact absurd heq (hx.1 r hr2)
    · rcases List.mem_cons.1 hr with rfl | hr2
      · exact absurd heq.symm (hx.1 d hd2)
      · exact ih hx.2 d hd2 r hr2 heq

theorem splitChar_ne_nil (c : Char) : ∀ l : List Char, splitChar c l ≠ [] := by
  intro l
  induction l with
  | nil => simp [splitChar]
  | cons x xs ih =>
    by_cases hx : x = c
    · simp [splitChar, hx]
    · simp only [splitChar, if_neg hx]
      rcases h : splitChar c xs with _ | ⟨hh, t⟩
      · simp
      · simp

theorem splitChar_length_of_mem (c : Char) :
    ∀ l : List Char, c ∈ l → 2 ≤ (splitChar c l).length := by
  intro l
  induction l with
  | nil =>
    intro h
    simp at h
  | cons x xs ih =>
    intro h
    by_cases hx : x = c
    · simp only [splitChar, if_pos hx, List.length_cons]
      have := List.length_pos.2 (splitChar_ne_nil c xs)
      omega
    · have hmem : c ∈ xs := by
        rcases List.mem_cons.1 h with h2 | h2
        · exact absurd h2.symm hx
        · exact h2
      simp only [splitChar, if_neg hx]
      rcases hs : splitChar c xs with _ | ⟨hh, t⟩
      · exact absurd hs (splitChar_ne_nil c xs)
      · have := ih hmem
        rw [hs] at this
        simp at this ⊢
        omega

/-- The spec's words for C6: "`file_type=` extension after the last '.'"
— the substring after the last '.', empty when the filename contains no
'.'. Written from the spec sentence, to be compared with the source's
`fileTypeOf`. -/
def specExtensionAfterLastDot (s : String) : String :=
  if (rustSplitDot s).length ≤ 1 then "" else (rustSplitDot s).getLast?.getD ""

theorem fileTypeOf_eq_spec_of_dot (s : String) (h : ('.' : Char) ∈ s.data) :
    fileTypeOf s = specExtensionAfterLastDot s := by
  have hlen : 2 ≤ (rustSplitDot s).length := by
    unfold rustSplitDot
    rw [List.length_map]
    exact splitChar_length_of_mem '.' s.data h
  have hne : rustSplitDot s ≠ [] := by
    intro hcon
    rw [hcon] at hlen
    simp at hlen
  obtain ⟨v, hv⟩ := Option.isSome_iff_exists.1 (List.getLast?_isSome.2 hne)
  unfold fileTypeOf specExtensionAfterLastDot
  rw [hv, if_neg (by omega)]
  rfl

/-! ### C5/C6 theorems -/

/-- C5 (amended): reconciliation is idempotent for sequential reruns —
if a run of `sync_s3_files` succeeds, running it again against the
unchanged store listing succeeds and leaves the catalog exactly as it
was. (The unique-violation half of the claim is refuted separately: a
violated insert is an error, not a success.) The hypotheses are the
schema invariants: primary keys below the sequence value and pairwise
distinct. -/
theorem c5_sync_idempotent (db : Db) (s3 : List String) (db2 : Db)
    (hIds : ∀ r ∈ db.rows, r.file_id < db.next_id)
    (hUniq : db.rows.Pairwise (fun a b => a.file_id ≠ b.file_id))
    (h1 : sync_s3_files db s3 = Except.ok db2) :
    sync_s3_files db2 s3 = Except.ok db2 := by
  unfold sync_s3_files at h1
  rcases hI : syncInserts db.rows s3 db with e | db1
  · rw [hI] at h1
    exact absurd h1 (by simp)
  · rw [hI] at h1
    simp only [Except.ok.injEq] at h1
    have hprov := syncInserts_provenance db.rows s3 db db1 hI
    have hcov := syncInserts_coverage db.rows s3 db db1 (fun r hr => hr) hI
    have hB : ∀ r ∈ db2.rows, s3.contains r.filename = true := by
      intro r hr
      rcases hcontains : s3.contains r.filename with _ | _
      · rw [← h1] at hr
        have hr1 := (syncDeletes_sub s3 db.rows db1).1 r hr
        rcases hprov r hr1 with hold | hfresh
        · have := syncDeletes_removes s3 db.rows db1 r hold hcontains r hr
          simp at this
        · have hmem : s3.contains r.filename = true :=
            List.elem_eq_true_of_mem hfresh.2.1
          rw [hcontains] at hmem
          exact absurd hmem (by simp)
      · rfl
    have hA : ∀ s ∈ s3, db2.rows.any (fun r => r.filename == s) = true := by
      intro s hs
      obtain ⟨r, hr1, hrname⟩ := hcov s hs
      have hkeep : r ∈ db2.rows := by
        rw [← h1]
        apply syncDeletes_keeps s3 db.rows db1 r hr1
        intro d hd hdc hdid
        rcases hprov r hr1 with hold | hfresh
        · have hdr := pairwise_id_inj hUniq d hd r hold hdid
          subst hdr
          have hmem : s3.contains d.filename = true := by
            rw [hrname]
            exact List.elem_eq_true_of_mem hs
          rw [hdc] at hmem
          exact absurd hmem (by simp)
        · have h2 := hIds d hd
          have h3 := hfresh.1
          omega
      refine List.any_eq_true.2 ⟨r, hkeep, ?_⟩
      simp [hrname]
    show (match syncInserts db2.rows s3 db2 with
          | Except.error e => Except.error e
          | Except.ok dbn => Except.ok (syncDeletes s3 db2.rows dbn)) = Except.ok db2
    rw [syncInserts_noop db2.rows s3 db2 hA]
    show Except.ok (syncDeletes s3 db2.rows db2) = Except.ok db2
    rw [syncDeletes_noop s3 db2.rows db2 hB]

/-- A catalog already holding `a.txt`. -/
def dbWithA : Db := ⟨[⟨0, "default_applicant", "a.txt", "txt", false⟩], 1⟩

/-- C5 counterexample: an insert that hits the filename unique
constraint returns an error — it is not treated as success — and
`sync_s3_files` propagates that error (shown with a listing that inserts
the same new filename twice, as a concurrent duplicate insert would). -/
theorem c5_unique_violation_cex :
    create_file dbWithA ⟨"default_applicant", "a.txt", "txt"⟩
        = Except.error DbError.uniqueViolation
    ∧ sync_s3_files ⟨[], 0⟩ ["a.txt", "a.txt"] = Except.error DbError.uniqueViolation :=
  ⟨rfl, rfl⟩

/-- C5 witness: the amended idempotence applied after syncing `a.txt`
into an empty catalog. -/
theorem c5_sync_idempotent_witness :
    sync_s3_files ⟨[⟨0, "default_applicant", "a.txt", "txt", false⟩], 1⟩ ["a.txt"]
        = Except.ok ⟨[⟨0, "default_applicant", "a.txt", "txt", false⟩], 1⟩ :=
  c5_sync_idempotent ⟨[], 0⟩ ["a.txt"] _ (by simp) (by simp) rfl

/-- C6 (amended): for every listed object absent from the catalog, a
successful `sync_s3_files` run leaves a row with `applicant =
"default_applicant"`, `processed = false`, and `file_type` equal to the
last '.'-separated segment of the filename — which is the extension
after the last '.' whenever the filename contains a '.', but is the
whole filename when it contains none. -/
theorem c6_insert_fields (db : Db) (s3 : List String) (db2 : Db) (s : String)
    (hIds : ∀ r ∈ db.rows, r.file_id < db.next_id)
    (h1 : sync_s3_files db s3 = Except.ok db2)
    (hs : s ∈ s3)
    (hnew : db.rows.any (fun r => r.filename == s) = false) :
    (∃ r ∈ db2.rows, r.filename = s ∧ r.applicant = "default_applicant"
        ∧ r.file_type = fileTypeOf s ∧ r.processed = false)
    ∧ (('.' : Char) ∈ s.data → fileTypeOf s = specExtensionAfterLastDot s) := by
  refine ⟨?_, fileTypeOf_eq_spec_of_dot s⟩
  unfold sync_s3_files at h1
  rcases hI : syncInserts db.rows s3 db with e | db1
  · rw [hI] at h1
    exact absurd h1 (by simp)
  · rw [hI] at h1
    simp only [Except.ok.injEq] at h1
    have hprov := syncInserts_provenance db.rows s3 db db1 hI
    obtain ⟨r, hr1, hrname⟩ := syncInserts_coverage db.rows s3 db db1 (fun r hr => hr) hI s hs
    have hfresh : db.next_id ≤ r.file_id ∧ r.filename ∈ s3
        ∧ r.applicant = "default_applicant"
        ∧ r.file_type = fileTypeOf r.filename ∧ r.processed = false := by
      rcases hprov r hr1 with hold | hf
      · have : db.rows.any (fun r2 => r2.filename == s) = true :=
          List.any_eq_true.2 ⟨r, hold, by simp [hrname]⟩
        rw [hnew] at this
        exact absurd this (by simp)
      · exact hf
    have hkeep : r ∈ db2.rows := by
      rw [← h1]
      apply syncDeletes_keeps s3 db.rows db1 r hr1
      intro d hd _ hdid
      have h2 := hIds d hd
      have h3 := hfresh.1
      omega
    exact ⟨r, hkeep, hrname, hfresh.2.2.1, hrname ▸ hfresh.2.2.2.1, hfresh.2.2.2.2⟩

/-- C6 counterexample: syncing a dot-free object name `README` into an
empty catalog stores `file_type = "README"` (the whole filename), while
the spec's "extension after the last '.'" is empty for a filename with
no '.' — the claim fails for filenames containing no '.'. -/
theorem c6_extension_cex :
    sync_s3_files ⟨[], 0⟩ ["README"]
        = Except.ok ⟨[⟨0, "default_applicant", "README", "README", false⟩], 1⟩
    ∧ specExtensionAfterLastDot "README" = ""
    ∧ ("README" : String) ≠ "" := by
  refine ⟨rfl, rfl, by decide⟩

/-- C6 witness: the amended insert-fields theorem applied to syncing
`a.txt` into an empty catalog. -/
theorem c6_insert_fields_witness :
    (∃ r ∈ (⟨[⟨0, "default_applicant", "a.txt", "txt", false⟩], 1⟩ : Db).rows,
        r.filename = "a.txt" ∧ r.applicant = "default_applicant"
        ∧ r.file_type = fileTypeOf "a.txt" ∧ r.processed = false)
    ∧ (('.' : Char) ∈ ("a.txt" : String).data →
        fileTypeOf "a.txt" = specExtensionAfterLastDot "a.txt") :=
  c6_insert_fields ⟨[], 0⟩ ["a.txt"] ⟨[⟨0, "default_applicant", "a.txt", "txt", false⟩], 1⟩
    "a.txt" (by simp) rfl (by simp) (by simp)

/-! ## Model loading (`run`, api-service/src/ai/mod.rs lines 144-172) -/

/-- Position-ids offset (mod.rs lines 144-152): `config.pad_token_id + 1`
when the model type is in the roberta family, else 0. -/
def position_offset (model_type : String) (pad_token_id : Nat) : Nat :=
  if model_type = "xlm-roberta" ∨ model_type = "camembert" ∨ model_type = "roberta" then
    pad_token_id + 1
  else 0

/-- Effective maximum input length (mod.rs lines 166-172): the
sentence-transformers `max_seq_length` when that config is present, else
`max_position_embeddings - position_offset`. -/
def max_input_length (st_max_seq_length : Option Nat) (max_position_embeddings : Nat)
    (offset : Nat) : Nat :=
  match st_max_seq_length with
  | some m => m
  | none => max_position_embeddings - offset

/-! ### C7 theorems -/

/-- C7 counterexample: for a roberta-family model whose config carries
`pad_token_id = 0` (the config default), the offset is 1, not the 2 the
claim states. -/
theorem c7_position_offset_cex :
    position_offset "roberta" 0 = 1 ∧ (1 : Nat) ≠ 2 :=
  ⟨rfl, by decide⟩

/-- C7 (amended): the offset is `pad_token_id + 1` for xlm-roberta,
camembert and roberta (hence 2 exactly when `pad_token_id = 1`) and 0
otherwise; the effective maximum input length is the
sentence-transformers `max_seq_length` when present, else
`max_position_embeddings` minus the offset. -/
theorem c7_model_load_params (model_type : String) (pad_token_id mp m : Nat) :
    ((model_type = "xlm-roberta" ∨ model_type = "camembert" ∨ model_type = "roberta") →
      position_offset model_type pad_token_id = pad_token_id + 1)
    ∧ (¬(model_type = "xlm-roberta" ∨ model_type = "camembert" ∨ model_type = "roberta") →
      position_offset model_type pad_token_id = 0)
    ∧ (pad_token_id = 1 →
        (model_type = "xlm-roberta" ∨ model_type = "camembert" ∨ model_type = "roberta") →
        position_offset model_type pad_token_id = 2)
    ∧ max_input_length (some m) mp (position_offset model_type pad_token_id) = m
    ∧ max_input_length none mp (position_offset model_type pad_token_id)
        = mp - position_offset model_type pad_token_id := by
  refine ⟨?_, ?_, ?_, rfl, rfl⟩
  · intro h
    unfold position_offset
    rw [if_pos h]
  · intro h
    unfold position_offset
    rw [if_neg h]
  · intro hp h
    unfold position_offset
    rw [if_pos h, hp]

/-- C7 witness: xlm-roberta with its usual `pad_token_id = 1` gets
offset 2, and the fallback maximum length subtracts it. -/
theorem c7_model_load_params_witness :
    position_offset "xlm-roberta" 1 = 2
    ∧ max_input_length none 514 (position_offset "xlm-roberta" 1)
        = 514 - position_offset "xlm-roberta" 1 :=
  ⟨(c7_model_load_params "xlm-roberta" 1 0 0).2.2.1 rfl (Or.inl rfl),
   (c7_model_load_params "xlm-roberta" 1 514 0).2.2.2.2⟩

/-! ## The embed route (`run_embed`, api-service/src/routes/embed.rs)

The handler wraps the whole body in a `Result`; the final `match`
(embed.rs lines 183-205) maps `Ok` to 200 with metadata headers,
`Error::Custom` messages containing "Queue is full" to 429, and every
other error to 500. The inner closure produces the empty-batch and
batch-size errors (lines 107-119). The inference calls are an oracle.
-/

/-- The request body: a single text or a batch. -/
inductive EmbedInput where
  | single : String → EmbedInput
  | batch : List String → EmbedInput

/-- The infer facade as the route sees it. -/
structure InferOracle where
  tryAcquirePermit : Except String Unit
  embedPooled : String → Except String (List Int)

/-- Rust `str::contains` on character lists. -/
def hasSubstr (pat : List Char) : List Char → Bool
  | [] => pat.isEmpty
  | x :: xs => pat.isPrefixOf (x :: xs) || hasSubstr pat xs

/-- Rust `msg.contains(pat)`. -/
def stringContains (s pat : String) : Bool :=
  hasSubstr pat.data s.data

/-- The handler's inner closure: empty-batch check, client batch-size
check, then the inference calls. -/
def run_embed_inner (o : InferOracle) (maxClientBatchSize : Nat) :
    EmbedInput → Except String (List (List Int))
  | EmbedInput.single input =>
    match o.tryAcquirePermit with
    | Except.error e => Except.error e
    | Except.ok _ =>
      match o.embedPooled input with
      | Except.error e => Except.error e
      | Except.ok v => Except.ok [v]
  | EmbedInput.batch inputs =>
    if inputs.isEmpty then Except.error "`inputs` cannot be empty"
    else if maxClientBatchSize < inputs.length then
      Except.error "batch size over maximum allowed batch size"
    else
      inputs.mapM o.embedPooled

/-- The final `match` of `run_embed`: the HTTP status it responds with. -/
def run_embed_status (r : Except String (List (List Int))) : Nat :=
  match r with
  | Except.ok _ => 200
  | Except.error msg => if stringContains msg "Queue is full" then 429 else 500

/-- `run_embed` as status code. -/
def run_embed (o : InferOracle) (maxClientBatchSize : Nat) (req : EmbedInput) : Nat :=
  run_embed_status (run_embed_inner o maxClientBatchSize req)

/-- An infer oracle that always succeeds. -/
def okOracle : InferOracle := ⟨Except.ok (), fun _ => Except.ok [1]⟩

/-- An infer oracle whose admission permit fails with a full queue. -/
def queueFullOracle : InferOracle := ⟨Except.error "Queue is full", fun _ => Except.ok [1]⟩

/-- C4: the code's status mapping evaluated at the claim's inputs: an
empty batch returns 500 (the claim and the route's own OpenAPI
annotation say 400), an oversized batch returns 500 (the claim says
413); only the queue-full 429 and the 200-on-success arms exist. -/
theorem c4_error_status_mapping :
    run_embed okOracle 32 (EmbedInput.batch []) = 500
    ∧ run_embed okOracle 0 (EmbedInput.batch ["a"]) = 500
    ∧ run_embed queueFullOracle 32 (EmbedInput.single "x") = 429
    ∧ run_embed okOracle 32 (EmbedInput.single "x") = 200 :=
  ⟨rfl, rfl, rfl, rfl⟩

/-! ## Scheduler persistence (lib-cron/src/lib.rs lines 111-137, 242-276)

The jobs cache is a map `Uuid → (job_type, cron)`, embedded as an
association list; `add_job` inserts under a fresh uuid and persists,
`save_jobs_to_file` serializes the map to a list of `JobRecord` with
`id.to_string()`, `load_jobs_from_file` parses each record's id back and
silently drops unparseable entries (`filter_map`), and `list_jobs`
(`serializable_jobs`) renders the cache as records. The uuid library's
`to_string`/`parse_str` pair is a parameter. -/

/-- The persisted record shape (lib.rs `JobRecord`). -/
structure JobRecord where
  id : String
  job_type : String
  cron : String
deriving DecidableEq, Repr

/-- `HashMap::insert`: replace any entry under the same key. -/
def jobsInsert (jobs : List (Nat × String × String)) (id : Nat) (jt cron : String) :
    List (Nat × String × String) :=
  (id, jt, cron) :: jobs.filter (fun p => !(p.1 == id))

/-- `save_jobs_to_file`: the serialized record list. -/
def save_jobs_to_file (toS : Nat → String) (jobs : List (Nat × String × String)) :
    List JobRecord :=
  jobs.map (fun p => ⟨toS p.1, p.2.1, p.2.2⟩)

/-- `load_jobs_from_file`: parse ids back, dropping failures. -/
def load_jobs_from_file (parse : String → Option Nat) (records : List JobRecord) :
    List (Nat × String × String) :=
  records.filterMap (fun j => (parse j.id).map (fun id => (id, j.job_type, j.cron)))

/-- `serializable_jobs` / `get_jobs` / `list_jobs`. -/
def serializable_jobs (toS : Nat → String) (jobs : List (Nat × String × String)) :
    List JobRecord :=
  jobs.map (fun p => ⟨toS p.1, p.2.1, p.2.2⟩)

/-- C8: add_job persists the registry; after a restart (save, then load
into a fresh cache) `list_jobs` contains a record with the same id
string, job type, and cron expression, provided the uuid library parses
back what it prints. -/
theorem c8_persistence_roundtrip (toS : Nat → String) (parse : String → Option Nat)
    (hrt : ∀ u, parse (toS u) = some u)
    (jobs : List (Nat × String × String)) (id : Nat) (jt cron : String) :
    (⟨toS id, jt, cron⟩ : JobRecord) ∈ serializable_jobs toS
      (load_jobs_from_file parse (save_jobs_to_file toS (jobsInsert jobs id jt cron))) := by
  have h2 : (id, jt, cron) ∈ load_jobs_from_file parse
      (save_jobs_to_file toS (jobsInsert jobs id jt cron)) := by
    unfold load_jobs_from_file save_jobs_to_file
    rw [List.filterMap_map]
    refine List.mem_filterMap.2 ⟨(id, jt, cron), by simp [jobsInsert], ?_⟩
    simp [hrt]
  exact List.mem_map.2 ⟨(id, jt, cron), h2, rfl⟩

/-- A concrete injective uuid printer: `n` is rendered as `n` copies of
`x`. -/
def natToStr (n : Nat) : String := String.mk (List.replicate n 'x')

/-- The matching parser: the length of the string. -/
def strToNat (s : String) : Option Nat := some s.length

/-- C8 witness: the round trip at a concrete registry. -/
theorem c8_persistence_roundtrip_witness :
    (⟨natToStr 3, "process_new_files", "0 */5 * * * *"⟩ : JobRecord) ∈
      serializable_jobs natToStr
        (load_jobs_from_file strToNat
          (save_jobs_to_file natToStr (jobsInsert [] 3 "process_new_files" "0 */5 * * * *"))) :=
  c8_persistence_roundtrip natToStr strToNat
    (fun u => by simp [natToStr, strToNat, String.length])
    [] 3 "process_new_files" "0 */5 * * * *"

/-! ## The files DAO update (`FileMac::update_file`, files.rs lines 73-93)

The UPDATE statement sets `filename = COALESCE($2, filename)`,
`content_md = COALESCE($3, content_md)`, `embedding = COALESCE($4,
embedding)` on the row `WHERE file_id = $1`. Embedding values are opaque
here (`List Int` stands for the float vector). -/

/-- A `files` row as `update_file` sees it (files.rs `File`). -/
structure CoreFile where
  file_id : String
  applicant : String
  filename : String
  content_md : Option String
  embedding : Option (List Int)
  uploaded_at : Nat
deriving DecidableEq, Repr

/-- files.rs `FileForUpdate`. -/
structure FileForUpdate where
  filename : Option String
  content_md : Option String
  embedding : Option (List Int)
deriving DecidableEq, Repr

/-- SQL `COALESCE(new, old)` for a nullable column. -/
def coalesce {α : Type} (new old : Option α) : Option α :=
  match new with
  | some v => some v
  | none => old

/-- The SET clause of the UPDATE applied to one row. -/
def applyUpdate (r : CoreFile) (u : FileForUpdate) : CoreFile :=
  { r with
    filename := u.filename.getD r.filename
    content_md := coalesce u.content_md r.content_md
    embedding := coalesce u.embedding r.embedding }

/-- `FileMac::update_file` on the table. -/
def update_file (rows : List CoreFile) (fid : String) (u : FileForUpdate) : List CoreFile :=
  rows.map (fun r => if r.file_id = fid then applyUpdate r u else r)

/-- C10: the frame property of `update_file`: rows with a different
`file_id` are carried over unchanged; on the matching row every field
passed as `None` keeps its previous value, every field passed as `Some`
takes the new value, and the columns the statement does not mention
(`file_id`, `applicant`, `uploaded_at`) are untouched. -/
theorem c10_update_file_frame (rows : List CoreFile) (fid : String) (u : FileForUpdate)
    (r : CoreFile) (hr : r ∈ rows) :
    (r.file_id ≠ fid → r ∈ update_file rows fid u)
    ∧ (r.file_id = fid → applyUpdate r u ∈ update_file rows fid u)
    ∧ (applyUpdate r u).file_id = r.file_id
    ∧ (applyUpdate r u).applicant = r.applicant
    ∧ (applyUpdate r u).uploaded_at = r.uploaded_at
    ∧ (u.filename = none → (applyUpdate r u).filename = r.filename)
    ∧ (u.content_md = none → (applyUpdate r u).content_md = r.content_md)
    ∧ (u.embedding = none → (applyUpdate r u).embedding = r.embedding)
    ∧ (∀ v, u.filename = some v → (applyUpdate r u).filename = v)
    ∧ (∀ v, u.content_md = some v → (applyUpdate r u).content_md = some v)
    ∧ (∀ v, u.embedding = some v → (applyUpdate r u).embedding = some v) := by
  refine ⟨?_, ?_, rfl, rfl, rfl, ?_, ?_, ?_, ?_, ?_, ?_⟩
  · intro h
    refine List.mem_map.2 ⟨r, hr, ?_⟩
    rw [if_neg h]
  · intro h
    refine List.mem_map.2 ⟨r, hr, ?_⟩
    rw [if_pos h]
  · intro h
    simp [applyUpdate, h]
  · intro h
    simp [applyUpdate, coalesce, h]
  · intro h
    simp [applyUpdate, coalesce, h]
  · intro v h
    simp [applyUpdate, h]
  · intro v h
    simp [applyUpdate, coalesce, h]
  · intro v h
    simp [applyUpdate, coalesce, h]

/-- A sample row. -/
def row0 : CoreFile := ⟨"f1", "alice", "old.pdf", none, some [1], 7⟩

/-- A sample update that sets the filename, leaves `content_md` null,
and replaces the embedding. -/
def upd0 : FileForUpdate := ⟨some "new.pdf", none, some [2]⟩

/-- C10 witness: a non-matching row is carried over unchanged, and a
`None` field keeps its value on the matching row. -/
theorem c10_update_file_frame_witness :
    row0 ∈ update_file [row0] "other" upd0
    ∧ (applyUpdate row0 upd0).content_md = row0.content_md :=
  ⟨(c10_update_file_frame [row0] "other" upd0 row0 (by simp)).1 (by decide),
   (c10_update_file_frame [row0] "other" upd0 row0 (by simp)).2.2.2.2.2.2.1 rfl⟩
